import Mathlib

/-!
Verification development for `django-gcloud-storage`
(`django_gcloud_storage/__init__.py`).

Python strings are modelled as lists of characters (`PyStr`), bytes as
lists of naturals.  The two core pieces of the repository are embedded:

* the path resolver `safe_join` together with the slice of
  `urlparse.urljoin` it exercises, and
* the buffered remote file `GCloudFile` (a spooled temporary file, a
  dirty flag, and an upload-on-close step).

The storage facade methods (`created_time`, `delete`, `exists`, `size`,
`modified_time`, `listdir`) are embedded over an explicit model of the
remote bucket (an association list from object keys to blob records).
-/

set_option maxHeartbeats 1000000

/-- Python `str` as a sequence of characters. -/
abbrev PyStr := List Char

/-- Embeds Python `s.lstrip("/")`: drop every leading `'/'`. -/
def lstripSlash (s : PyStr) : PyStr := s.dropWhile (· = '/')

/-- Embeds Python `s.rstrip("/")`: drop every trailing `'/'`. -/
def rstripSlash : PyStr → PyStr
  | [] => []
  | c :: rest =>
    let r := rstripSlash rest
    if r = [] ∧ c = '/' then [] else c :: r

/-- Embeds Python `s.split("/")` (single-character separator). -/
def splitSlash : PyStr → List PyStr
  | [] => [[]]
  | c :: rest =>
    if c = '/' then [] :: splitSlash rest
    else
      match splitSlash rest with
      | [] => [[c]]
      | s :: ss => (c :: s) :: ss

/-- Embeds Python `"/".join(parts)`. -/
def joinSlash : List PyStr → PyStr
  | [] => []
  | [s] => s
  | s :: rest => s ++ '/' :: joinSlash rest

/-- Worker for `collapseSlashes`; the boolean records whether the previous
kept character was a separator (so further separators are dropped). -/
def collapseAux : PyStr → Bool → PyStr
  | [], _ => []
  | c :: rest, prev =>
    if c = '/' then
      if prev then collapseAux rest true
      else '/' :: collapseAux rest true
    else c :: collapseAux rest false

/-- Embeds Python `re.sub("//+", "/", s)`: every maximal run of
separators becomes a single separator. -/
def collapseSlashes (s : PyStr) : PyStr := collapseAux s false

/-- Step of the dot-segment removal loop of `urllib.parse.urljoin`:
`".."` pops the accumulator (ignoring underflow, as the Python
`try: pop / except IndexError: pass` does), `"."` is skipped, and any
other segment is appended. -/
def dotStep (acc : List PyStr) (seg : PyStr) : List PyStr :=
  if seg = ['.', '.'] then acc.dropLast
  else if seg = ['.'] then acc
  else acc ++ [seg]

/-- Worker for `filterInterior`: drops empty segments but always keeps
the final element, mirroring the slice assignment
`segments[1:-1] = filter(None, segments[1:-1])`. -/
def filterMid : List PyStr → List PyStr
  | [] => []
  | [x] => [x]
  | x :: rest => if x = [] then filterMid rest else x :: filterMid rest

/-- Embeds `segments[1:-1] = filter(None, segments[1:-1])` from
`urllib.parse.urljoin`: interior empty segments are removed, the first
and last segments are kept as they are. -/
def filterInterior : List PyStr → List PyStr
  | [] => []
  | [x] => [x]
  | x :: rest => x :: filterMid rest

/-- Embeds `urlparse.urljoin(base, url)` (the CPython 3 implementation)
restricted to path-only references: no scheme, authority, query or
fragment is split off, the whole string is treated as the path
component.  This matches the call site in `safe_join`, whose base is a
normalized `"/.../"` path and whose url is a name already stripped of
leading separators; theorems that quantify over names restrict them to
segments free of the URL-reserved characters `':'`, `'?'`, `'#'` so
that this path-only reading agrees with the full parser. -/
def urljoin (base url : PyStr) : PyStr :=
  if base = [] then url
  else if url = [] then base
  else
    let baseParts0 := splitSlash base
    let baseParts :=
      if baseParts0.getLast? = some [] then baseParts0 else baseParts0.dropLast
    let segments :=
      if url.head? = some '/' then splitSlash url
      else filterInterior (baseParts ++ splitSlash url)
    let resolved := segments.foldl dotStep []
    let resolved :=
      if segments.getLast? = some ['.'] ∨ segments.getLast? = some ['.', '.']
      then resolved ++ [([] : PyStr)] else resolved
    if joinSlash resolved = [] then ['/'] else joinSlash resolved

/-- Diagnostic payload of the `SuspiciousFileOperation` raised by
`safe_join`: the Python message interpolates the joined path and the
base path component. -/
structure SuspiciousFileOperation where
  resolved_url : PyStr
  base : PyStr
deriving DecidableEq, Repr

/-- Normalized root computed by the first lines of `safe_join`:
`base = "/" + base.lstrip("/").rstrip("/") + "/"`, then the special
case `if base == "//": base = "/"` for an empty root. -/
def normalizedRoot (base : PyStr) : PyStr :=
  let b := '/' :: rstripSlash (lstripSlash base) ++ ['/']
  if b = ['/', '/'] then ['/'] else b

/-- Embeds `safe_join(base, path)`: normalize the base, strip leading
separators from the path, resolve with `urljoin`, collapse separator
runs, and fail with `SuspiciousFileOperation` unless the result starts
with the normalized base. -/
def safe_join (base path : PyStr) : Except SuspiciousFileOperation PyStr :=
  let b := normalizedRoot base
  let p := lstripSlash path
  let resolved_url := collapseSlashes (urljoin b p)
  if b.isPrefixOf resolved_url then .ok resolved_url
  else .error ⟨resolved_url, b⟩

example : safe_join "/media/".data "../../etc/passwd".data =
    .error ⟨"etc/passwd".data, "/media/".data⟩ := by rfl

example : safe_join "/media/".data "avatars/1.png".data =
    .ok "/media/avatars/1.png".data := by rfl

example : safe_join "".data "a//b".data = .ok "/a/b".data := by rfl

example : safe_join "/media/".data "a//b".data = .ok "/media/a/b".data := by rfl

example : safe_join "/media/".data "".data = .ok "/media/".data := by rfl

example : safe_join "".data "x".data = .ok "/x".data := by rfl

/-! ### Buffered remote file (`GCloudFile`) -/

/-- Model of the `SpooledTemporaryFile` used by `GCloudFile`: a byte
buffer together with the file cursor.  Spilling from memory to disk is
transparent to callers and does not affect contents, so only data and
position are modelled. -/
structure SpooledBuffer where
  data : List Nat
  pos : Nat
deriving DecidableEq, Repr

/-- File-semantics write at the current cursor: bytes before the cursor
are kept (zero-filled if the cursor lies past the end), the written
content overwrites from the cursor on, and the cursor advances past the
written content. -/
def SpooledBuffer.write (b : SpooledBuffer) (content : List Nat) : SpooledBuffer :=
  { data := b.data.take b.pos ++ List.replicate (b.pos - b.data.length) 0 ++
      content ++ b.data.drop (b.pos + content.length)
    pos := b.pos + content.length }

/-- Model of `blob.upload_from_file(fileobj, rewind)`: with `rewind`
the stream is seeked to offset zero first, so the whole buffer is sent;
without it only the bytes from the current cursor on are sent.  Returns
the uploaded byte sequence and the buffer state after the read (cursor
at the end). -/
def upload_from_file (b : SpooledBuffer) (rewind : Bool) : List Nat × SpooledBuffer :=
  let start := if rewind then 0 else b.pos
  (b.data.drop start, { b with pos := b.data.length })

/-- Model of the `GCloudFile` wrapper: the spooled buffer, the `_dirty`
flag, and whether the underlying file has been closed.  The remote blob
handle is kept outside the state (uploads are reported as events). -/
structure GCloudFile where
  dirty : Bool
  tmpfile : SpooledBuffer
  closed : Bool
deriving DecidableEq, Repr

/-- State produced by `GCloudFile.__init__`: clean, empty spooled
buffer, cursor at zero. -/
def newGCloudFile : GCloudFile :=
  { dirty := false, tmpfile := { data := [], pos := 0 }, closed := false }

/-- Embeds `GCloudFile.write`: set `_dirty = True` then delegate to the
underlying spooled file's write. -/
def GCloudFile.write (f : GCloudFile) (content : List Nat) : GCloudFile :=
  { f with dirty := true, tmpfile := f.tmpfile.write content }

/-- Result of one `GCloudFile.close()` call: the state afterwards, the
list of successful uploads it performed (each entry is the uploaded
byte sequence), and whether an exception escaped. -/
structure CloseResult where
  state : GCloudFile
  uploads : List (List Nat)
  raised : Bool
deriving DecidableEq, Repr

/-- Embeds `GCloudFile.close`: if `_dirty`, call
`blob.upload_from_file(self._tmpfile, rewind=True)` and then clear
`_dirty`; finally `super().close()`.  The collaborator's upload outcome
is injected through `uploadFails`: when the upload raises, the
exception propagates before `_dirty` is cleared and before the
underlying file is closed, leaving the state untouched. -/
def GCloudFile.close (f : GCloudFile) (uploadFails : Bool) : CloseResult :=
  if f.dirty then
    if uploadFails then { state := f, uploads := [], raised := true }
    else
      let (content, buf) := upload_from_file f.tmpfile true
      { state := { f with dirty := false, tmpfile := buf, closed := true }
        uploads := [content], raised := false }
  else { state := { f with closed := true }, uploads := [], raised := false }

/-- Caller-visible operations on an open `GCloudFile` between open and
close: a write, a full read (`read()` consumes to the end of file), or
a seek. -/
inductive FileOp where
  | wr (content : List Nat)
  | rd
  | sk (pos : Nat)
deriving DecidableEq, Repr

/-- Apply one caller operation to the file state. -/
def applyOp (f : GCloudFile) : FileOp → GCloudFile
  | .wr c => f.write c
  | .rd => { f with tmpfile := { f.tmpfile with pos := f.tmpfile.data.length } }
  | .sk p => { f with tmpfile := { f.tmpfile with pos := p } }

/-- Run a sequence of caller operations. -/
def runOps (f : GCloudFile) : List FileOp → GCloudFile
  | [] => f
  | op :: rest => runOps (applyOp f op) rest

/-- Whether the sequence contains at least one write call. -/
def hasWrite (ops : List FileOp) : Bool :=
  ops.any fun op => match op with | .wr _ => true | _ => false

/-- Whether the sequence contains a seek. -/
def hasSeek (ops : List FileOp) : Bool :=
  ops.any fun op => match op with | .sk _ => true | _ => false

/-- Concatenation, in order, of all written byte sequences. -/
def writtenBytes : List FileOp → List Nat
  | [] => []
  | .wr c :: rest => c ++ writtenBytes rest
  | _ :: rest => writtenBytes rest

/-- Embeds `DjangoGCloudStorage._open` after the blob has been fetched:
`GCloudFile(blob)` is created, `blob.download_to_file(tmpfile)` streams
the remote content into the wrapper by calling its (overridden) `write`
method chunk by chunk, and finally `tmpfile.seek(0)` rewinds the
cursor.  The remote content is given as the list of chunks the
collaborator writes. -/
def storageOpen (chunks : List (List Nat)) : GCloudFile :=
  let f := chunks.foldl GCloudFile.write newGCloudFile
  { f with tmpfile := { f.tmpfile with pos := 0 } }

/-! ### Storage facade over a bucket model -/

/-- Record of the collaborator's blob metadata used by the facade:
byte size, `updated` timestamp, and the raw `timeCreated` property
(absent when the collaborator did not supply it). -/
structure Blob where
  size : Nat
  updated : Nat
  timeCreated : Option PyStr
deriving DecidableEq, Repr

/-- The remote bucket: an association list from object keys to blobs. -/
abbrev Store := List (PyStr × Blob)

/-- Model of `bucket.get_blob(name)`: the blob stored under the key, or
`none` when no such object exists. -/
def get_blob (store : Store) (name : PyStr) : Option Blob :=
  store.lookup name

/-- Collaborator errors surfaced by the gcloud client. -/
inductive GCloudError where
  | notFound
  | other
deriving DecidableEq, Repr

/-- Exceptions a facade call can raise. -/
inductive PyExc where
  | suspiciousOp (e : SuspiciousFileOperation)
  | attributeError
  | gcloud (e : GCloudError)
deriving DecidableEq, Repr

/-- Result of `datetime.strptime(value, RFC3339_MICROS).replace(tzinfo=UTC)`,
kept abstract: the facade only forwards it, no claim inspects the parsed
fields. -/
structure UTCTime where
  raw : PyStr
deriving DecidableEq, Repr

/-- Embeds `prepare_name` (`smart_str` utf-8 conversion): the identity
on the character-sequence model. -/
def prepare_name (name : PyStr) : PyStr := name

/-- Embeds `DjangoGCloudStorage.created_time`: resolve the name, fetch
the blob, then read `blob._properties.get("timeCreated", None)`.  When
`get_blob` returned `None` the attribute access on `None` raises an
`AttributeError`; when the property is absent the method falls through
and returns `None`. -/
def DjangoGCloudStorage.created_time (store : Store) (subdir name : PyStr) :
    Except PyExc (Option UTCTime) :=
  match safe_join subdir name with
  | .error e => .error (.suspiciousOp e)
  | .ok n =>
    let n := prepare_name n
    match get_blob store n with
    | none => .error .attributeError
    | some blob =>
      match blob.timeCreated with
      | none => .ok none
      | some v => .ok (some ⟨v⟩)

/-- Embeds `DjangoGCloudStorage.exists`: resolve, then
`get_blob(name) is not None`. -/
def DjangoGCloudStorage.existsName (store : Store) (subdir name : PyStr) :
    Except PyExc Bool :=
  match safe_join subdir name with
  | .error e => .error (.suspiciousOp e)
  | .ok n => .ok (get_blob store (prepare_name n)).isSome

/-- Embeds `DjangoGCloudStorage.size`: resolve, then
`blob.size if blob is not None else None`. -/
def DjangoGCloudStorage.size (store : Store) (subdir name : PyStr) :
    Except PyExc (Option Nat) :=
  match safe_join subdir name with
  | .error e => .error (.suspiciousOp e)
  | .ok n => .ok ((get_blob store (prepare_name n)).map Blob.size)

/-- Embeds `DjangoGCloudStorage.modified_time`: resolve, then
`blob.updated if blob is not None else None`. -/
def DjangoGCloudStorage.modified_time (store : Store) (subdir name : PyStr) :
    Except PyExc (Option Nat) :=
  match safe_join subdir name with
  | .error e => .error (.suspiciousOp e)
  | .ok n => .ok ((get_blob store (prepare_name n)).map Blob.updated)

/-- Model of `bucket.delete_blob(name)`: remove the key, raising
`NotFound` when no object has that key. -/
def delete_blob (store : Store) (name : PyStr) : Except GCloudError Store :=
  if (get_blob store name).isSome then
    .ok (store.filter fun kv => kv.1 ≠ name)
  else .error .notFound

/-- Embeds the `try/except NotFound: pass` around `delete_blob` in
`DjangoGCloudStorage.delete`: a `NotFound` from the collaborator is
swallowed (the store is left as it was), every other collaborator
error propagates. -/
def deleteHandler (store : Store) (r : Except GCloudError Store) : Except PyExc Store :=
  match r with
  | .error .notFound => .ok store
  | .error e => .error (.gcloud e)
  | .ok s => .ok s

/-- Embeds `DjangoGCloudStorage.delete`: resolve the name, then call
`bucket.delete_blob` inside `try/except NotFound: pass`. -/
def DjangoGCloudStorage.delete (store : Store) (subdir name : PyStr) :
    Except PyExc Store :=
  match safe_join subdir name with
  | .error e => .error (.suspiciousOp e)
  | .ok n => deleteHandler store (delete_blob store (prepare_name n))

/-- Embeds `remove_prefix(target, prefix)` from the source: drop the
prefix when the target starts with it, otherwise return the target
unchanged. -/
def remove_pfx (target pfx : PyStr) : PyStr :=
  if pfx.isPrefixOf target then target.drop pfx.length else target

/-- Model of `bucket.list_blobs(prefix=p, delimiter="/")` over the list
of keys in the bucket: `items` are the keys under the prefix whose
remainder contains no further delimiter; `prefixes` groups the other
keys by their first delimiter-terminated segment (deduplicated), each
entry being `p + segment + "/"`. -/
def list_blobs (keys : List PyStr) (p : PyStr) : List PyStr × List PyStr :=
  let matching := keys.filter fun k => p.isPrefixOf k
  let items := matching.filter fun k => ¬ (k.drop p.length).contains '/'
  let prefixes := (matching.filter fun k => (k.drop p.length).contains '/').map
    fun k => p ++ (k.drop p.length).takeWhile (· ≠ '/') ++ ['/']
  (items, prefixes.dedup)

/-- The body of `listdir` after the path has been resolved to `p`:
strip the resolved prefix from blob names (`items`) and common
prefixes (`dirs`, additionally `rstrip`-ping the trailing delimiter)
and sort both lists. -/
def listdirResolved (keys : List PyStr) (p : PyStr) : List PyStr × List PyStr :=
  (((list_blobs keys p).2.map fun q => rstripSlash (remove_pfx q p)).insertionSort
      (· ≤ ·),
   ((list_blobs keys p).1.map fun b => remove_pfx b p).insertionSort (· ≤ ·))

/-- Embeds `DjangoGCloudStorage.listdir`: resolve the path, list blobs
with the resolved key as prefix and `"/"` as delimiter, then strip,
`rstrip` and sort as in `listdirResolved`. -/
def DjangoGCloudStorage.listdir (keys : List PyStr) (subdir path : PyStr) :
    Except PyExc (List PyStr × List PyStr) :=
  match safe_join subdir path with
  | .error e => .error (.suspiciousOp e)
  | .ok p0 => .ok (listdirResolved keys (prepare_name p0))

example : DjangoGCloudStorage.listdir
    ["/photos/a.jpg".data, "/photos/sub/b.jpg".data] "".data "photos/".data =
    .ok (["sub".data], ["a.jpg".data]) := by rfl

example : DjangoGCloudStorage.listdir
    ["photos/a.jpg".data, "photos/sub/b.jpg".data] "".data "photos/".data =
    .ok ([], []) := by rfl

example : DjangoGCloudStorage.created_time [] "".data "x".data =
    .error .attributeError := by rfl

/-! ### Lemmas about the buffered file -/

theorem runOps_cons (f : GCloudFile) (op : FileOp) (ops : List FileOp) :
    runOps f (op :: ops) = runOps (applyOp f op) ops := rfl

theorem runOps_dirty (ops : List FileOp) (f : GCloudFile) :
    (runOps f ops).dirty = (f.dirty || hasWrite ops) := by
  induction ops generalizing f with
  | nil => simp [runOps, hasWrite]
  | cons op rest ih =>
    rw [runOps_cons, ih]
    cases op <;> simp [applyOp, GCloudFile.write, hasWrite, List.any_cons]

theorem runOps_data (ops : List FileOp) (f : GCloudFile)
    (hpos : f.tmpfile.pos = f.tmpfile.data.length) (hns : hasSeek ops = false) :
    (runOps f ops).tmpfile.data = f.tmpfile.data ++ writtenBytes ops ∧
    (runOps f ops).tmpfile.pos = (runOps f ops).tmpfile.data.length := by
  induction ops generalizing f with
  | nil => simp [runOps, writtenBytes, hpos]
  | cons op rest ih =>
    rw [runOps_cons]
    cases op with
    | wr c =>
      simp only [applyOp]
      have hw : (f.write c).tmpfile.data = f.tmpfile.data ++ c ∧
          (f.write c).tmpfile.pos = (f.write c).tmpfile.data.length := by
        simp [GCloudFile.write, SpooledBuffer.write, hpos, List.take_length,
          List.drop_eq_nil_of_le]
      have := ih (f.write c) hw.2 (by
        simpa [hasSeek, List.any_cons] using hns)
      refine ⟨?_, this.2⟩
      rw [this.1, hw.1, writtenBytes, List.append_assoc]
    | rd =>
      have := ih { f with tmpfile := { f.tmpfile with pos := f.tmpfile.data.length } }
        rfl (by simpa [hasSeek, List.any_cons] using hns)
      simpa [applyOp, writtenBytes] using this
    | sk p =>
      simp [hasSeek, List.any_cons] at hns

/-! ### Claim theorems: buffered remote file -/

/-- C2: for an open/close cycle started by `GCloudFile.__init__`, close
performs at most one upload, exactly one when at least one write call
occurred, and the uploaded content is the entire buffer read from
offset zero (so, for seek-free sequences, the written bytes in write
order), regardless of the cursor position at close time. -/
theorem C2_close_uploads_whole_buffer (ops : List FileOp) :
    ((runOps newGCloudFile ops).close false).uploads.length ≤ 1 ∧
    (hasWrite ops = true →
      ((runOps newGCloudFile ops).close false).uploads =
        [(runOps newGCloudFile ops).tmpfile.data]) ∧
    (hasSeek ops = false →
      (runOps newGCloudFile ops).tmpfile.data = writtenBytes ops) := by
  refine ⟨?_, ?_, ?_⟩
  · unfold GCloudFile.close
    split
    · simp [upload_from_file]
    · simp
  · intro hw
    have hd : (runOps newGCloudFile ops).dirty = true := by
      rw [runOps_dirty]; simp [newGCloudFile, hw]
    simp [GCloudFile.close, hd, upload_from_file]
  · intro hs
    have := runOps_data ops newGCloudFile rfl hs
    simpa [newGCloudFile] using this.1

/-- Witness for `C2_close_uploads_whole_buffer` at a concrete
operation sequence: write, read back, write again, then close. -/
theorem C2_close_uploads_whole_buffer_witness :
    hasWrite [FileOp.wr [1], FileOp.rd, FileOp.wr [2]] = true ∧
    hasSeek [FileOp.wr [1], FileOp.rd, FileOp.wr [2]] = false ∧
    ((runOps newGCloudFile [FileOp.wr [1], FileOp.rd, FileOp.wr [2]]).close false).uploads =
      [(runOps newGCloudFile [FileOp.wr [1], FileOp.rd, FileOp.wr [2]]).tmpfile.data] ∧
    (runOps newGCloudFile [FileOp.wr [1], FileOp.rd, FileOp.wr [2]]).tmpfile.data =
      writtenBytes [FileOp.wr [1], FileOp.rd, FileOp.wr [2]] :=
  ⟨rfl, rfl,
    (C2_close_uploads_whole_buffer [FileOp.wr [1], FileOp.rd, FileOp.wr [2]]).2.1 rfl,
    (C2_close_uploads_whole_buffer [FileOp.wr [1], FileOp.rd, FileOp.wr [2]]).2.2 rfl⟩

/-- C3 (divergence witness): opening for read does fetch the remote
bytes into the buffer with the cursor rewound to the start, but the
download streams through the overridden `write`, which sets `_dirty`,
so a close after only reads performs one (re-)upload of the downloaded
content instead of zero uploads. -/
theorem C3_read_only_close_uploads :
    (storageOpen [[97, 98, 99]]).tmpfile.data = [97, 98, 99] ∧
    (storageOpen [[97, 98, 99]]).tmpfile.pos = 0 ∧
    (storageOpen [[97, 98, 99]]).dirty = true ∧
    ((runOps (storageOpen [[97, 98, 99]]) [FileOp.rd]).close false).uploads =
      [[97, 98, 99]] :=
  ⟨rfl, rfl, rfl, rfl⟩

/-- C5 (counterexample): a single `write` call with an empty byte
sequence still sets the dirty flag, so close performs one upload (of
the empty buffer), not zero. -/
theorem C5_counterexample :
    ((newGCloudFile.write []).close false).uploads = [([] : List Nat)] ∧
    ((newGCloudFile.write []).close false).uploads.length = 1 :=
  ⟨rfl, rfl⟩

/-- C5 (amended): close performs zero upload calls exactly when no
write call occurred during the cycle; any write call, even of an empty
byte sequence, marks the file dirty and triggers one upload. -/
theorem C5_no_write_no_upload (ops : List FileOp) :
    ((runOps newGCloudFile ops).close false).uploads = [] ↔ hasWrite ops = false := by
  have hd : (runOps newGCloudFile ops).dirty = hasWrite ops := by
    rw [runOps_dirty]; simp [newGCloudFile]
  unfold GCloudFile.close
  rw [hd]
  cases h : hasWrite ops <;> simp [upload_from_file]

/-- C8: when the upload performed by close on a dirty file fails, the
exception escapes (`raised`), no upload is recorded, the state is left
unchanged — dirty flag still set, buffer intact, file not closed — and
a subsequent close retries the upload of the same full buffer
contents. -/
theorem C8_failed_close_retries (f : GCloudFile) (h : f.dirty = true) :
    (f.close true).raised = true ∧
    (f.close true).state = f ∧
    (f.close true).uploads = [] ∧
    ((f.close true).state.close false).uploads = [f.tmpfile.data] ∧
    ((f.close true).state.close false).raised = false := by
  simp [GCloudFile.close, h, upload_from_file]

/-- Witness for `C8_failed_close_retries` on a concrete dirty file. -/
theorem C8_failed_close_retries_witness :
    ((newGCloudFile.write [7, 8]).close true).raised = true ∧
    ((newGCloudFile.write [7, 8]).close true).state = newGCloudFile.write [7, 8] ∧
    ((newGCloudFile.write [7, 8]).close true).uploads = [] ∧
    (((newGCloudFile.write [7, 8]).close true).state.close false).uploads =
      [(newGCloudFile.write [7, 8]).tmpfile.data] ∧
    (((newGCloudFile.write [7, 8]).close true).state.close false).raised = false :=
  C8_failed_close_retries (newGCloudFile.write [7, 8]) rfl

/-- C10: a close that completes successfully clears the dirty flag, so
a second close performs no upload and raises no error, whatever the
collaborator would do with a further upload. -/
theorem C10_second_close_noop (f : GCloudFile) (uploadFails : Bool) :
    (f.close false).raised = false ∧
    ((f.close false).state.close uploadFails).uploads = [] ∧
    ((f.close false).state.close uploadFails).raised = false := by
  cases h : f.dirty <;> simp [GCloudFile.close, h, upload_from_file]

/-! ### Lemmas about stripping separators -/

theorem lstripSlash_head (s : PyStr) : (lstripSlash s).head? ≠ some '/' := by
  induction s with
  | nil => simp [lstripSlash]
  | cons c rest ih =>
    by_cases h : c = '/'
    · simpa [lstripSlash, List.dropWhile_cons, h] using ih
    · simp [lstripSlash, List.dropWhile_cons, h]

theorem rstripSlash_head (s : PyStr) (c : Char)
    (h : (rstripSlash s).head? = some c) : s.head? = some c := by
  cases s with
  | nil => simp [rstripSlash] at h
  | cons a rest =>
    rw [rstripSlash] at h
    by_cases hc : rstripSlash rest = [] ∧ a = '/'
    · simp [hc] at h
    · simp only [if_neg hc, List.head?_cons, Option.some.injEq] at h
      simp [h]

theorem rstripSlash_getLast (s : PyStr) : (rstripSlash s).getLast? ≠ some '/' := by
  induction s with
  | nil => simp [rstripSlash]
  | cons a rest ih =>
    rw [rstripSlash]
    by_cases hc : rstripSlash rest = [] ∧ a = '/'
    · simp [hc]
    · simp only [if_neg hc]
      cases hr : rstripSlash rest with
      | nil =>
        have : ¬ a = '/' := fun ha => hc ⟨hr, ha⟩
        simp [this]
      | cons b l =>
        rw [List.getLast?_cons_cons]
        rw [hr] at ih
        exact ih

/-! ### Claim theorems: path resolver containment -/

theorem safe_join_eq (base path : PyStr) :
    safe_join base path =
      if (normalizedRoot base).isPrefixOf
          (collapseSlashes (urljoin (normalizedRoot base) (lstripSlash path))) then
        .ok (collapseSlashes (urljoin (normalizedRoot base) (lstripSlash path)))
      else
        .error ⟨collapseSlashes (urljoin (normalizedRoot base) (lstripSlash path)),
          normalizedRoot base⟩ := rfl

theorem normalizedRoot_eq (base : PyStr) :
    normalizedRoot base =
      if '/' :: rstripSlash (lstripSlash base) ++ ['/'] = ['/', '/'] then ['/']
      else '/' :: rstripSlash (lstripSlash base) ++ ['/'] := rfl

/-- C1: `safe_join` either returns a string that starts with the
normalized root — one leading and one trailing separator around the
stripped root, or the single separator for an empty root — or raises
`SuspiciousFileOperation`, and it raises exactly when the resolved,
separator-collapsed string does not start with the normalized root as
a literal prefix; in particular root `"/media/"` with name
`"../../etc/passwd"` raises, carrying the resolved path and the root. -/
theorem C1_containment :
    (∀ R N r, safe_join R N = .ok r → (normalizedRoot R).isPrefixOf r = true) ∧
    (∀ R N, (∃ e, safe_join R N = .error e) ↔
      (normalizedRoot R).isPrefixOf
        (collapseSlashes (urljoin (normalizedRoot R) (lstripSlash N))) = false) ∧
    (∀ R, normalizedRoot R = ['/'] ∨
      ∃ core, normalizedRoot R = '/' :: core ++ ['/'] ∧ core ≠ [] ∧
        core.head? ≠ some '/' ∧ core.getLast? ≠ some '/') ∧
    safe_join "/media/".data "../../etc/passwd".data =
      .error ⟨"etc/passwd".data, "/media/".data⟩ := by
  refine ⟨?_, ?_, ?_, by rfl⟩
  · intro R N r h
    rw [safe_join_eq] at h
    split at h
    · rename_i hcond
      injection h with h2
      rw [← h2]
      exact hcond
    · exact Except.noConfusion h
  · intro R N
    rw [safe_join_eq]
    split
    · rename_i hcond
      constructor
      · rintro ⟨e, he⟩
        exact Except.noConfusion he
      · intro hfalse
        rw [hcond] at hfalse
        exact Bool.noConfusion hfalse
    · rename_i hcond
      constructor
      · intro _
        cases hb : List.isPrefixOf (normalizedRoot R)
            (collapseSlashes (urljoin (normalizedRoot R) (lstripSlash N)))
        · rfl
        · exact absurd hb hcond
      · intro _
        exact ⟨_, rfl⟩
  · intro R
    rw [normalizedRoot_eq]
    by_cases h : rstripSlash (lstripSlash R) = []
    · left; rw [h]; rfl
    · right
      refine ⟨rstripSlash (lstripSlash R), ?_, h, ?_,
        rstripSlash_getLast (lstripSlash R)⟩
      · have hne : ¬ ('/' :: rstripSlash (lstripSlash R) ++ ['/'] = ['/', '/']) := by
          intro heq
          apply h
          have hlen := congrArg List.length heq
          simp at hlen
          exact hlen
        rw [if_neg hne]
      · intro hh
        cases hhead : (rstripSlash (lstripSlash R)).head? with
        | none => rw [hhead] at hh; exact Option.noConfusion hh
        | some c =>
          rw [hhead] at hh
          injection hh with hc
          have hhd := rstripSlash_head (lstripSlash R) c hhead
          rw [hc] at hhd
          exact lstripSlash_head R hhd

/-- Witness for `C1_containment`: the ok branch at root `"/media/"`,
name `"a"`, and the raise-iff characterization at the traversal
scenario. -/
theorem C1_containment_witness :
    (normalizedRoot "/media/".data).isPrefixOf "/media/a".data = true ∧
    (∃ e, safe_join "/media/".data "../../etc/passwd".data = .error e) :=
  ⟨C1_containment.1 "/media/".data "a".data "/media/a".data (by rfl),
    (C1_containment.2.1 "/media/".data "../../etc/passwd".data).mpr (by rfl)⟩

/-! ### Claim theorems: facade error handling -/

/-- C6 (counterexample): on a name that resolves but names no existing
object, `created_time` does not return an absent result — the
attribute access on the `None` blob handle raises. -/
theorem C6_counterexample :
    DjangoGCloudStorage.created_time [] "".data "x".data = .error .attributeError ∧
    DjangoGCloudStorage.created_time [] "".data "x".data ≠ .ok none :=
  ⟨rfl, by
    intro h
    have h0 : DjangoGCloudStorage.created_time [] "".data "x".data =
        Except.error PyExc.attributeError := rfl
    rw [h0] at h
    exact Except.noConfusion h⟩

/-- C6 (amended): for a name that resolves successfully and names no
existing object, `exists` returns false and `size` and `modified_time`
return an absent result, while `created_time` raises an
`AttributeError` on the absent blob handle instead of returning
absent. -/
theorem C6_missing_object (store : Store) (subdir name k : PyStr)
    (h1 : safe_join subdir name = .ok k)
    (h2 : get_blob store (prepare_name k) = none) :
    DjangoGCloudStorage.existsName store subdir name = .ok false ∧
    DjangoGCloudStorage.size store subdir name = .ok none ∧
    DjangoGCloudStorage.modified_time store subdir name = .ok none ∧
    DjangoGCloudStorage.created_time store subdir name = .error .attributeError := by
  unfold DjangoGCloudStorage.existsName DjangoGCloudStorage.size
    DjangoGCloudStorage.modified_time DjangoGCloudStorage.created_time
  rw [h1]
  simp [h2]

/-- Witness for `C6_missing_object` on the empty store. -/
theorem C6_missing_object_witness :
    DjangoGCloudStorage.existsName [] "".data "x".data = .ok false ∧
    DjangoGCloudStorage.size [] "".data "x".data = .ok none ∧
    DjangoGCloudStorage.modified_time [] "".data "x".data = .ok none ∧
    DjangoGCloudStorage.created_time [] "".data "x".data = .error .attributeError :=
  C6_missing_object [] "".data "x".data "/x".data (by rfl) rfl

/-- C7: deleting a name that resolves to a key with no remote object
completes normally and leaves the store unchanged — the collaborator's
`NotFound` is swallowed — while any other collaborator error
propagates out of `delete`. -/
theorem C7_delete_idempotent :
    (∀ (store : Store) (subdir name k : PyStr),
      safe_join subdir name = .ok k →
      get_blob store (prepare_name k) = none →
      DjangoGCloudStorage.delete store subdir name = .ok store) ∧
    (∀ (store : Store) (e : GCloudError), e ≠ .notFound →
      deleteHandler store (.error e) = .error (.gcloud e)) := by
  constructor
  · intro store subdir name k h1 h2
    unfold DjangoGCloudStorage.delete
    rw [h1]
    simp [delete_blob, h2, deleteHandler]
  · intro store e he
    cases e with
    | notFound => exact absurd rfl he
    | other => rfl

/-- Witness for `C7_delete_idempotent`: delete of a missing key on the
empty store, and propagation of a non-`NotFound` collaborator error. -/
theorem C7_delete_idempotent_witness :
    DjangoGCloudStorage.delete [] "".data "x".data = .ok [] ∧
    deleteHandler [] (.error .other) = .error (.gcloud .other) :=
  ⟨C7_delete_idempotent.1 [] "".data "x".data "/x".data (by rfl) rfl,
    C7_delete_idempotent.2 [] .other (by simp)⟩

/-! ### Split/join lemmas for the clean-path theorem -/

theorem splitSlash_cons (c : Char) (rest : PyStr) :
    splitSlash (c :: rest) =
      if c = '/' then [] :: splitSlash rest
      else
        match splitSlash rest with
        | [] => [[c]]
        | s :: ss => (c :: s) :: ss := rfl

theorem splitSlash_ne_nil (s : PyStr) : splitSlash s ≠ [] := by
  cases s with
  | nil => simp [splitSlash]
  | cons c rest =>
    rw [splitSlash_cons]
    split
    · simp
    · cases h : splitSlash rest <;> simp

theorem joinSlash_cons (s : PyStr) (rest : List PyStr) (h : rest ≠ []) :
    joinSlash (s :: rest) = s ++ '/' :: joinSlash rest := by
  cases rest with
  | nil => exact absurd rfl h
  | cons b l => rfl

theorem joinSlash_splitSlash (s : PyStr) : joinSlash (splitSlash s) = s := by
  induction s with
  | nil => rfl
  | cons c rest ih =>
    rw [splitSlash_cons]
    by_cases h : c = '/'
    · rw [if_pos h, joinSlash_cons _ _ (splitSlash_ne_nil rest), ih, h]
      rfl
    · rw [if_neg h]
      cases hr : splitSlash rest with
      | nil => exact absurd hr (splitSlash_ne_nil rest)
      | cons s0 ss =>
        rw [hr] at ih
        cases ss with
        | nil =>
          simp only [joinSlash] at ih ⊢
          rw [ih]
        | cons s1 ss1 =>
          rw [joinSlash_cons _ _ (by simp), List.cons_append,
            ← joinSlash_cons s0 (s1 :: ss1) (by simp), ih]

theorem splitSlash_no_slash (s : PyStr) : ∀ t ∈ splitSlash s, '/' ∉ t := by
  induction s with
  | nil => intro t ht; simp [splitSlash] at ht; simp [ht]
  | cons c rest ih =>
    intro t ht
    rw [splitSlash_cons] at ht
    by_cases h : c = '/'
    · rw [if_pos h] at ht
      rcases List.mem_cons.mp ht with h1 | h1
      · simp [h1]
      · exact ih t h1
    · rw [if_neg h] at ht
      cases hr : splitSlash rest with
      | nil => exact absurd hr (splitSlash_ne_nil rest)
      | cons s0 ss =>
        rw [hr] at ht
        simp only at ht
        rcases List.mem_cons.mp ht with h1 | h1
        · subst h1
          intro hmem
          rcases List.mem_cons.mp hmem with h2 | h2
          · exact h h2.symm
          · exact ih s0 (hr ▸ List.mem_cons_self s0 ss) h2
        · exact ih t (hr ▸ List.mem_cons_of_mem s0 h1)

theorem splitSlash_append_slash_cons (s X : PyStr) (h : '/' ∉ s) :
    splitSlash (s ++ '/' :: X) = s :: splitSlash X := by
  induction s with
  | nil => rfl
  | cons c s' ih =>
    have hc : ¬ c = '/' := fun hcc => h (hcc ▸ List.mem_cons_self c s')
    have ih' := ih (fun hm => h (List.mem_cons_of_mem c hm))
    rw [List.cons_append, splitSlash_cons, if_neg hc, ih']

theorem splitSlash_single (s : PyStr) (h : '/' ∉ s) : splitSlash s = [s] := by
  induction s with
  | nil => rfl
  | cons c s' ih =>
    have hc : ¬ c = '/' := fun hcc => h (hcc ▸ List.mem_cons_self c s')
    have ih' := ih (fun hm => h (List.mem_cons_of_mem c hm))
    rw [splitSlash_cons, if_neg hc, ih']

theorem splitSlash_joinSlash (ss : List PyStr) (hne : ss ≠ [])
    (h : ∀ s ∈ ss, '/' ∉ s) : splitSlash (joinSlash ss) = ss := by
  induction ss with
  | nil => exact absurd rfl hne
  | cons s rest ih =>
    cases rest with
    | nil => exact splitSlash_single s (h s (List.mem_cons_self s []))
    | cons s1 rest1 =>
      rw [joinSlash_cons s (s1 :: rest1) (by simp),
        splitSlash_append_slash_cons s _ (h s (List.mem_cons_self s _)),
        ih (by simp) (fun t ht => h t (List.mem_cons_of_mem s ht))]

theorem joinSlash_append (as bs : List PyStr) (ha : as ≠ []) (hb : bs ≠ []) :
    joinSlash (as ++ bs) = joinSlash as ++ '/' :: joinSlash bs := by
  induction as with
  | nil => exact absurd rfl ha
  | cons a as' ih =>
    cases as' with
    | nil =>
      rw [List.cons_append, List.nil_append, joinSlash_cons a bs hb]
      rfl
    | cons a1 as1 =>
      rw [List.cons_append, joinSlash_cons a _ (by simp),
        joinSlash_cons a (a1 :: as1) (by simp), ih (by simp), List.append_assoc,
        List.cons_append]

/-! ### Plain path segments and the clean-join lemmas -/

/-- A plain path segment: nonempty, not a dot segment, and free of the
separator and of the URL-reserved characters on which the full
`urlsplit` parser would branch. -/
def plainSeg (s : PyStr) : Bool :=
  !s.isEmpty && (s != ['.']) && (s != ['.', '.']) &&
    s.all fun c => (c != '/') && (c != ':') && (c != '?') && (c != '#')

theorem plainSeg_ne_nil {s : PyStr} (h : plainSeg s = true) : s ≠ [] := by
  intro hs
  rw [hs] at h
  simp [plainSeg] at h

theorem plainSeg_no_slash {s : PyStr} (h : plainSeg s = true) : '/' ∉ s := by
  intro hmem
  simp only [plainSeg, Bool.and_eq_true, List.all_eq_true] at h
  have := h.2 '/' hmem
  simp at this

theorem plainSeg_ne_dot {s : PyStr} (h : plainSeg s = true) :
    s ≠ ['.'] ∧ s ≠ ['.', '.'] := by
  simp only [plainSeg, Bool.and_eq_true, bne_iff_ne] at h
  exact ⟨h.1.1.2, h.1.2⟩

theorem head_ne_slash (s : PyStr) (h : '/' ∉ s) : s.head? ≠ some '/' := by
  cases s with
  | nil => simp
  | cons c cs =>
    intro hh
    simp only [List.head?_cons, Option.some.injEq] at hh
    apply h
    rw [← hh]
    exact List.mem_cons_self c cs

theorem filterMid_keep (bs : List PyStr) (y : PyStr)
    (hb : ∀ t ∈ bs, t ≠ []) : filterMid (bs ++ [y]) = bs ++ [y] := by
  induction bs with
  | nil => rfl
  | cons b bs' ih =>
    have hbne : ¬ b = [] := hb b (List.mem_cons_self b bs')
    have hstep : filterMid (b :: (bs' ++ [y])) =
        if b = [] then filterMid (bs' ++ [y]) else b :: filterMid (bs' ++ [y]) := by
      cases bs' <;> rfl
    rw [List.cons_append, hstep, if_neg hbne,
      ih (fun t ht => hb t (List.mem_cons_of_mem b ht))]

theorem filterMid_calc (as bs : List PyStr) (y : PyStr)
    (ha : ∀ t ∈ as, t ≠ []) (hb : ∀ t ∈ bs, t ≠ []) :
    filterMid (as ++ [] :: (bs ++ [y])) = as ++ (bs ++ [y]) := by
  induction as with
  | nil =>
    have hstep : filterMid ([] :: (bs ++ [y])) =
        if ([] : PyStr) = [] then filterMid (bs ++ [y])
        else [] :: filterMid (bs ++ [y]) := by
      cases bs <;> rfl
    rw [List.nil_append, hstep, if_pos rfl, filterMid_keep bs y hb, List.nil_append]
  | cons a as' ih =>
    have hane : ¬ a = [] := ha a (List.mem_cons_self a as')
    have hstep : filterMid (a :: (as' ++ [] :: (bs ++ [y]))) =
        if a = [] then filterMid (as' ++ [] :: (bs ++ [y]))
        else a :: filterMid (as' ++ [] :: (bs ++ [y])) := by
      cases as' <;> rfl
    rw [List.cons_append, hstep, if_neg hane,
      ih (fun t ht => ha t (List.mem_cons_of_mem a ht)), List.cons_append]

theorem filterInterior_cons (x : PyStr) (rest : List PyStr) (h : rest ≠ []) :
    filterInterior (x :: rest) = x :: filterMid rest := by
  cases rest with
  | nil => exact absurd rfl h
  | cons b l => rfl

theorem foldl_dotStep (segs : List PyStr) (acc : List PyStr)
    (h : ∀ t ∈ segs, t ≠ ['.'] ∧ t ≠ ['.', '.']) :
    segs.foldl dotStep acc = acc ++ segs := by
  induction segs generalizing acc with
  | nil => simp
  | cons s rest ih =>
    have hs := h s (List.mem_cons_self s rest)
    rw [List.foldl_cons]
    have hstep : dotStep acc s = acc ++ [s] := by
      unfold dotStep
      rw [if_neg hs.2, if_neg hs.1]
    rw [hstep, ih (acc ++ [s]) (fun t ht => h t (List.mem_cons_of_mem s ht)),
      List.append_assoc]
    rfl

/-- All elements of the list except the last are nonempty. -/
def restOK : List PyStr → Bool
  | [] => true
  | [_] => true
  | x :: rest => !x.isEmpty && restOK rest

theorem restOK_cons (x : PyStr) (y : PyStr) (l : List PyStr) :
    restOK (x :: y :: l) = (!x.isEmpty && restOK (y :: l)) := rfl

theorem restOK_concat (as : List PyStr) (y : PyStr)
    (h : ∀ t ∈ as, t ≠ []) : restOK (as ++ [y]) = true := by
  induction as with
  | nil => rfl
  | cons a as' ih =>
    have hane : a ≠ [] := h a (List.mem_cons_self a as')
    have h' := ih (fun t ht => h t (List.mem_cons_of_mem a ht))
    cases as' with
    | nil =>
      rw [List.cons_append, List.nil_append, restOK_cons]
      have hy : restOK [y] = true := rfl
      simp [hane, hy]
    | cons b bs =>
      rw [List.cons_append, List.cons_append, restOK_cons]
      rw [List.cons_append] at h'
      simp [hane, h']

theorem collapseAux_cons (c : Char) (rest : PyStr) (p : Bool) :
    collapseAux (c :: rest) p =
      if c = '/' then
        if p then collapseAux rest true else '/' :: collapseAux rest true
      else c :: collapseAux rest false := rfl

theorem collapseAux_slash_false (rest : PyStr) :
    collapseAux ('/' :: rest) false = '/' :: collapseAux rest true := rfl

theorem collapseAux_seg (s : PyStr) (rest : PyStr) (p : Bool)
    (hs : '/' ∉ s) (hne : s ≠ []) :
    collapseAux (s ++ rest) p = s ++ collapseAux rest false := by
  induction s generalizing p with
  | nil => exact absurd rfl hne
  | cons c s' ih =>
    have hc : ¬ c = '/' := fun hcc => hs (hcc ▸ List.mem_cons_self c s')
    rw [List.cons_append, collapseAux_cons, if_neg hc]
    cases s' with
    | nil => rfl
    | cons d s2 =>
      rw [ih false (fun hm => hs (List.mem_cons_of_mem c hm)) (by simp)]
      rfl

theorem collapseAux_true_of_head (xs : PyStr) (h : xs.head? ≠ some '/') :
    collapseAux xs true = collapseAux xs false := by
  cases xs with
  | nil => rfl
  | cons c rest =>
    have hc : ¬ c = '/' := fun hcc => h (by rw [hcc]; rfl)
    rw [collapseAux_cons, collapseAux_cons, if_neg hc, if_neg hc]

theorem joinSlash_head_cons (s2 : PyStr) (ss2 : List PyStr) (h : s2 ≠ []) :
    (joinSlash (s2 :: ss2)).head? = s2.head? := by
  cases ss2 with
  | nil => rfl
  | cons t ts =>
    rw [joinSlash_cons s2 (t :: ts) (by simp)]
    cases s2 with
    | nil => exact absurd rfl h
    | cons c cs => rfl

theorem collapse_join (ss : List PyStr)
    (h1 : ∀ s ∈ ss, '/' ∉ s) (h2 : restOK ss = true) :
    collapseAux (joinSlash ss) false = joinSlash ss := by
  induction ss with
  | nil => rfl
  | cons s rest ih =>
    cases rest with
    | nil =>
      by_cases hse : s = []
      · rw [hse]; rfl
      · have hj : joinSlash [s] = s := rfl
        rw [hj, ← List.append_nil s, collapseAux_seg s [] false
          (h1 s (List.mem_cons_self s [])) hse]
        rfl
    | cons s2 ss2 =>
      rw [restOK_cons, Bool.and_eq_true] at h2
      have hsne : s ≠ [] := by
        intro hs
        rw [hs] at h2
        simp [List.isEmpty] at h2
      rw [joinSlash_cons s (s2 :: ss2) (by simp),
        collapseAux_seg s _ false (h1 s (List.mem_cons_self s _)) hsne,
        collapseAux_slash_false]
      by_cases hs2 : s2 = []
      · have hss2 : ss2 = [] := by
          cases ss2 with
          | nil => rfl
          | cons t ts =>
            obtain ⟨-, h22⟩ := h2
            rw [restOK_cons, Bool.and_eq_true, hs2] at h22
            simp [List.isEmpty] at h22
        rw [hs2, hss2]
        rfl
      · have hhead : (joinSlash (s2 :: ss2)).head? ≠ some '/' := by
          rw [joinSlash_head_cons s2 ss2 hs2]
          exact head_ne_slash s2
            (h1 s2 (List.mem_cons_of_mem s (List.mem_cons_self s2 ss2)))
        rw [collapseAux_true_of_head _ hhead,
          ih (fun t ht => h1 t (List.mem_cons_of_mem s ht)) h2.2]

theorem collapse_root_join (t : List PyStr) (hne : t ≠ [])
    (h1 : ∀ s ∈ t, '/' ∉ s) (h2 : restOK t = true)
    (h3 : ∀ x xs, t = x :: xs → xs ≠ [] → x ≠ []) :
    collapseSlashes (joinSlash ([] :: t)) = joinSlash ([] :: t) := by
  cases t with
  | nil => exact absurd rfl hne
  | cons x xs =>
    rw [joinSlash_cons [] (x :: xs) (by simp), List.nil_append]
    unfold collapseSlashes
    rw [collapseAux_slash_false]
    cases xs with
    | nil =>
      by_cases hx : x = []
      · rw [hx]; rfl
      · have hj : joinSlash [x] = x := rfl
        rw [hj, collapseAux_true_of_head x
          (head_ne_slash x (h1 x (List.mem_cons_self x []))),
          ← List.append_nil x, collapseAux_seg x [] false
          (h1 x (List.mem_cons_self x [])) hx]
        rfl
    | cons y ys =>
      have hx : x ≠ [] := h3 x (y :: ys) rfl (by simp)
      have hhead : (joinSlash (x :: y :: ys)).head? ≠ some '/' := by
        rw [joinSlash_head_cons x (y :: ys) hx]
        exact head_ne_slash x (h1 x (List.mem_cons_self x _))
      rw [collapseAux_true_of_head _ hhead, collapse_join (x :: y :: ys) h1 h2]

/-! ### Views of `urljoin` for rewriting -/

/-- The `segments` list computed inside `urljoin`. -/
def urlSegments (base url : PyStr) : List PyStr :=
  if url.head? = some '/' then splitSlash url
  else
    filterInterior
      ((if (splitSlash base).getLast? = some [] then splitSlash base
        else (splitSlash base).dropLast) ++ splitSlash url)

/-- The `resolved_path` list computed inside `urljoin`. -/
def urlResolved (segments : List PyStr) : List PyStr :=
  if segments.getLast? = some ['.'] ∨ segments.getLast? = some ['.', '.'] then
    segments.foldl dotStep [] ++ [([] : PyStr)]
  else segments.foldl dotStep []

theorem urljoin_eq (base url : PyStr) :
    urljoin base url =
      if base = [] then url
      else if url = [] then base
      else if joinSlash (urlResolved (urlSegments base url)) = [] then ['/']
      else joinSlash (urlResolved (urlSegments base url)) := rfl

/-- The normalized root, written as a slash-join of its plain segments
with the leading and trailing empty segment. -/
theorem joinSlash_root_cons (srs : List PyStr) :
    joinSlash ([] :: (srs ++ [[]])) = '/' :: joinSlash (srs ++ [[]]) := by
  rw [joinSlash_cons [] (srs ++ [[]]) (by simp)]
  rfl

/-- A clean root: empty after stripping separators, or made of plain
segments only. -/
def rootClean (R : PyStr) : Bool :=
  (rstripSlash (lstripSlash R)).isEmpty ||
    (splitSlash (rstripSlash (lstripSlash R))).all plainSeg

/-- A clean name: empty after stripping leading separators, or made of
plain segments with at most one trailing separator. -/
def nameClean (N : PyStr) : Bool :=
  (lstripSlash N).isEmpty ||
    (if (splitSlash (lstripSlash N)).getLast? = some [] then
      (splitSlash (lstripSlash N)).dropLast
     else splitSlash (lstripSlash N)).all plainSeg

theorem normalizedRoot_clean (R : PyStr) (hR : rootClean R = true) :
    ∃ srs, (∀ t ∈ srs, plainSeg t = true) ∧
      normalizedRoot R = joinSlash ([] :: (srs ++ [[]])) := by
  rw [rootClean, Bool.or_eq_true] at hR
  by_cases hR' : rstripSlash (lstripSlash R) = []
  · refine ⟨[], by simp, ?_⟩
    rw [normalizedRoot_eq, hR']
    rfl
  · have hall : (splitSlash (rstripSlash (lstripSlash R))).all plainSeg = true := by
      rcases hR with h | h
      · exact absurd (List.isEmpty_iff.mp h) hR'
      · exact h
    refine ⟨splitSlash (rstripSlash (lstripSlash R)),
      fun t ht => List.all_eq_true.mp hall t ht, ?_⟩
    rw [normalizedRoot_eq]
    have hne2 : ¬ ('/' :: rstripSlash (lstripSlash R) ++ ['/'] = ['/', '/']) := by
      intro heq
      apply hR'
      have hlen := congrArg List.length heq
      simp at hlen
      exact hlen
    rw [if_neg hne2, joinSlash_root_cons,
      joinSlash_append _ [[]] (splitSlash_ne_nil _) (by simp),
      joinSlash_splitSlash]
    rfl

theorem nameSegs_decomp (N' : PyStr)
    (hclean : (if (splitSlash N').getLast? = some [] then (splitSlash N').dropLast
               else splitSlash N').all plainSeg = true) :
    ∃ front last, splitSlash N' = front ++ [last] ∧
      (∀ t ∈ front, plainSeg t = true) ∧
      (plainSeg last = true ∨ last = []) := by
  have hss := splitSlash_ne_nil N'
  refine ⟨(splitSlash N').dropLast, (splitSlash N').getLast hss,
    (List.dropLast_append_getLast hss).symm, ?_, ?_⟩
  · intro t ht
    by_cases hl : (splitSlash N').getLast? = some []
    · rw [if_pos hl] at hclean
      exact List.all_eq_true.mp hclean t ht
    · rw [if_neg hl] at hclean
      exact List.all_eq_true.mp hclean t ((List.dropLast_sublist _).subset ht)
  · by_cases hl : (splitSlash N').getLast? = some []
    · right
      have := List.getLast?_eq_getLast (splitSlash N') hss
      rw [this] at hl
      exact Option.some.inj hl
    · left
      rw [if_neg hl] at hclean
      exact List.all_eq_true.mp hclean _ (List.getLast_mem hss)

theorem urljoin_clean_append (srs front : List PyStr) (last N' : PyStr)
    (hsrs : ∀ t ∈ srs, plainSeg t = true)
    (hsplit : splitSlash N' = front ++ [last])
    (hfront : ∀ t ∈ front, plainSeg t = true)
    (hlast : plainSeg last = true ∨ last = [])
    (hN' : N' ≠ []) :
    urljoin (joinSlash ([] :: (srs ++ [[]]))) N' =
      joinSlash ([] :: (srs ++ (front ++ [last]))) ∧
    joinSlash ([] :: (srs ++ (front ++ [last]))) =
      joinSlash ([] :: (srs ++ [[]])) ++ N' := by
  have hNj : joinSlash (front ++ [last]) = N' := by
    rw [← hsplit, joinSlash_splitSlash]
  have hlastd : last ≠ ['.'] ∧ last ≠ ['.', '.'] := by
    rcases hlast with h | h
    · exact plainSeg_ne_dot h
    · rw [h]; exact ⟨by simp, by simp⟩
  have happ2 : joinSlash ([] :: (srs ++ (front ++ [last]))) =
      joinSlash ([] :: (srs ++ [[]])) ++ N' := by
    rw [joinSlash_cons [] (srs ++ (front ++ [last])) (by simp),
      joinSlash_root_cons, List.nil_append, List.cons_append]
    have hmain : joinSlash (srs ++ (front ++ [last])) =
        joinSlash (srs ++ [[]]) ++ N' := by
      cases srs with
      | nil =>
        rw [List.nil_append, List.nil_append, hNj]
        rfl
      | cons s0 sr =>
        rw [joinSlash_append (s0 :: sr) (front ++ [last]) (by simp) (by simp),
          joinSlash_append (s0 :: sr) [[]] (by simp) (by simp), hNj,
          List.append_assoc]
        rfl
    rw [hmain]
  refine ⟨?_, happ2⟩
  have hb := joinSlash_root_cons srs
  have hbne : joinSlash ([] :: (srs ++ [[]])) ≠ [] := by
    rw [hb]; simp
  have hnos : ∀ s ∈ ([] :: (srs ++ [[]]) : List PyStr), '/' ∉ s := by
    intro s hs
    rcases List.mem_cons.mp hs with h | h
    · rw [h]; simp
    · rcases List.mem_append.mp h with h2 | h2
      · exact plainSeg_no_slash (hsrs s h2)
      · rw [List.mem_singleton.mp h2]; simp
  have hsplitb : splitSlash (joinSlash ([] :: (srs ++ [[]]))) =
      [] :: (srs ++ [[]]) := splitSlash_joinSlash _ (by simp) hnos
  have hgl : ([] :: (srs ++ [[]]) : List PyStr).getLast? = some [] :=
    List.getLast?_concat (([] : PyStr) :: srs)
  have hNhead : N'.head? ≠ some '/' := by
    rw [← hNj]
    cases front with
    | nil =>
      rcases hlast with h | h
      · exact head_ne_slash last (plainSeg_no_slash h)
      · exfalso
        apply hN'
        rw [← hNj, h]
        rfl
    | cons f0 fr =>
      rw [List.cons_append, joinSlash_head_cons f0 (fr ++ [last])
        (plainSeg_ne_nil (hfront f0 (List.mem_cons_self f0 fr)))]
      exact head_ne_slash f0 (plainSeg_no_slash (hfront f0 (List.mem_cons_self f0 fr)))
  have hseg : urlSegments (joinSlash ([] :: (srs ++ [[]]))) N' =
      [] :: (srs ++ (front ++ [last])) := by
    unfold urlSegments
    rw [if_neg hNhead, hsplitb, if_pos hgl, hsplit]
    have hre : (([] :: (srs ++ [[]])) : List PyStr) ++ (front ++ [last]) =
        [] :: (srs ++ [] :: (front ++ [last])) := by simp
    rw [hre, filterInterior_cons _ _ (by simp),
      filterMid_calc srs front last (fun t ht => plainSeg_ne_nil (hsrs t ht))
        (fun t ht => plainSeg_ne_nil (hfront t ht))]
  have hnodots : ∀ t ∈ ([] :: (srs ++ (front ++ [last])) : List PyStr),
      t ≠ ['.'] ∧ t ≠ ['.', '.'] := by
    intro t ht
    rcases List.mem_cons.mp ht with h | h
    · rw [h]; exact ⟨by simp, by simp⟩
    · rcases List.mem_append.mp h with h2 | h2
      · exact plainSeg_ne_dot (hsrs t h2)
      · rcases List.mem_append.mp h2 with h3 | h3
        · exact plainSeg_ne_dot (hfront t h3)
        · rw [List.mem_singleton.mp h3]; exact hlastd
  have hgl2 : ([] :: (srs ++ (front ++ [last])) : List PyStr).getLast? = some last := by
    have hshape : ([] :: (srs ++ (front ++ [last])) : List PyStr) =
        ([] :: (srs ++ front)) ++ [last] := by simp
    rw [hshape]
    exact List.getLast?_concat _
  rw [urljoin_eq, if_neg hbne, if_neg hN', hseg]
  have hres : urlResolved ([] :: (srs ++ (front ++ [last]))) =
      [] :: (srs ++ (front ++ [last])) := by
    unfold urlResolved
    rw [hgl2, if_neg ?_, foldl_dotStep _ [] hnodots, List.nil_append]
    rintro (h | h)
    · exact hlastd.1 (Option.some.inj h)
    · exact hlastd.2 (Option.some.inj h)
  rw [hres, if_neg ?_]
  rw [joinSlash_cons [] (srs ++ (front ++ [last])) (by simp)]
  simp

theorem isPrefixOf_append_self (l t : PyStr) : l.isPrefixOf (l ++ t) = true := by
  induction l with
  | nil => exact List.isPrefixOf_nil_left
  | cons a l' ih => simp [List.isPrefixOf, ih]

theorem isPrefixOf_self (l : PyStr) : l.isPrefixOf l = true := by
  have h := isPrefixOf_append_self l []
  rwa [List.append_nil] at h

theorem isPrefixOf_exists (l m : PyStr) (h : l.isPrefixOf m = true) :
    ∃ t, l ++ t = m := by
  induction l generalizing m with
  | nil => exact ⟨m, rfl⟩
  | cons a l' ih =>
    cases m with
    | nil => simp [List.isPrefixOf] at h
    | cons b m' =>
      simp only [List.isPrefixOf, Bool.and_eq_true, beq_iff_eq] at h
      obtain ⟨t, ht⟩ := ih m' h.2
      exact ⟨t, by rw [List.cons_append, ht, h.1]⟩

theorem isPrefixOf_of_append (l t m : PyStr) (h : l ++ t = m) :
    l.isPrefixOf m = true := by
  rw [← h]
  exact isPrefixOf_append_self l t

theorem isSuffixOf_append_self (t l : PyStr) : l.isSuffixOf (t ++ l) = true := by
  rw [List.isSuffixOf, List.reverse_append]
  exact isPrefixOf_append_self _ _

theorem safe_join_clean_eq (R N : PyStr) (hR : rootClean R = true)
    (hN : nameClean N = true) :
    safe_join R N = .ok (normalizedRoot R ++ lstripSlash N) := by
  obtain ⟨srs, hsrs, hroot⟩ := normalizedRoot_clean R hR
  have hnos : ∀ s ∈ (srs ++ [[]] : List PyStr), '/' ∉ s := by
    intro s hs
    rcases List.mem_append.mp hs with h | h
    · exact plainSeg_no_slash (hsrs s h)
    · rw [List.mem_singleton.mp h]; simp
  by_cases hN' : lstripSlash N = []
  · rw [safe_join_eq, hN']
    have hbne : normalizedRoot R ≠ [] := by
      rw [hroot, joinSlash_root_cons]; simp
    have hju : urljoin (normalizedRoot R) [] = normalizedRoot R := by
      rw [urljoin_eq, if_neg hbne]
      rfl
    rw [hju]
    have h3 : ∀ (x : PyStr) (xs : List PyStr),
        srs ++ [[]] = x :: xs → xs ≠ [] → x ≠ [] := by
      intro x xs heq hxs
      cases hs0 : srs with
      | nil =>
        rw [hs0] at heq
        simp only [List.nil_append, List.cons.injEq] at heq
        exact absurd heq.2.symm hxs
      | cons s0 sr =>
        rw [hs0, List.cons_append] at heq
        injection heq with h1 _
        rw [← h1]
        exact plainSeg_ne_nil (hsrs s0 (hs0 ▸ List.mem_cons_self s0 sr))
    have hcol : collapseSlashes (normalizedRoot R) = normalizedRoot R := by
      rw [hroot]
      exact collapse_root_join (srs ++ [[]]) (by simp) hnos
        (restOK_concat srs [] (fun t ht => plainSeg_ne_nil (hsrs t ht))) h3
    rw [hcol]
    have hpre : (normalizedRoot R).isPrefixOf (normalizedRoot R) = true :=
      isPrefixOf_self _
    rw [if_pos hpre, List.append_nil]
  · have hclean : (if (splitSlash (lstripSlash N)).getLast? = some [] then
        (splitSlash (lstripSlash N)).dropLast
        else splitSlash (lstripSlash N)).all plainSeg = true := by
      rw [nameClean, Bool.or_eq_true] at hN
      rcases hN with h | h
      · exact absurd (List.isEmpty_iff.mp h) hN'
      · exact h
    obtain ⟨front, last, hsplit, hfront, hlast⟩ := nameSegs_decomp _ hclean
    obtain ⟨hu1, hu2⟩ :=
      urljoin_clean_append srs front last (lstripSlash N) hsrs hsplit hfront hlast hN'
    have hrest2 : restOK (srs ++ (front ++ [last])) = true := by
      rw [← List.append_assoc]
      refine restOK_concat (srs ++ front) last ?_
      intro t ht
      rcases List.mem_append.mp ht with h | h
      · exact plainSeg_ne_nil (hsrs t h)
      · exact plainSeg_ne_nil (hfront t h)
    have hnos2 : ∀ s ∈ (srs ++ (front ++ [last]) : List PyStr), '/' ∉ s := by
      intro s hs
      rcases List.mem_append.mp hs with h | h
      · exact plainSeg_no_slash (hsrs s h)
      · rcases List.mem_append.mp h with h2 | h2
        · exact plainSeg_no_slash (hfront s h2)
        · rw [List.mem_singleton.mp h2]
          rcases hlast with h3 | h3
          · exact plainSeg_no_slash h3
          · rw [h3]; simp
    have h32 : ∀ (x : PyStr) (xs : List PyStr),
        srs ++ (front ++ [last]) = x :: xs → xs ≠ [] → x ≠ [] := by
      intro x xs heq hxs
      cases hs0 : srs with
      | nil =>
        rw [hs0, List.nil_append] at heq
        cases hf0 : front with
        | nil =>
          rw [hf0, List.nil_append] at heq
          simp only [List.cons.injEq] at heq
          exact absurd heq.2.symm hxs
        | cons f0 fr =>
          rw [hf0, List.cons_append] at heq
          injection heq with h1 _
          rw [← h1]
          exact plainSeg_ne_nil (hfront f0 (hf0 ▸ List.mem_cons_self f0 fr))
      | cons s0 sr =>
        rw [hs0, List.cons_append] at heq
        injection heq with h1 _
        rw [← h1]
        exact plainSeg_ne_nil (hsrs s0 (hs0 ▸ List.mem_cons_self s0 sr))
    have hcol := collapse_root_join (srs ++ (front ++ [last])) (by simp) hnos2
      hrest2 h32
    rw [safe_join_eq, hroot, hu1, hcol, hu2]
    have hpre : (joinSlash ([] :: (srs ++ [[]]))).isPrefixOf
        (joinSlash ([] :: (srs ++ [[]])) ++ lstripSlash N) = true :=
      isPrefixOf_append_self _ _
    rw [if_pos hpre]

/-! ### Claim theorems: clean roots and names -/

/-- C4 (counterexample): the name `"a//b"` contains no `".."` segment,
yet resolving it against root `"/media/"` yields `"/media/a/b"`, which
does not end with the normalized name `"a//b"` (the interior empty
segment is filtered by the URL resolution, and the spec's claimed
suffix property fails). -/
theorem C4_counterexample :
    safe_join "/media/".data "a//b".data = .ok "/media/a/b".data ∧
    "/media/a/b".data.isSuffixOf "a//b".data = false ∧
    ("a//b".data).isSuffixOf "/media/a/b".data = false := by
  refine ⟨by rfl, by rfl, by rfl⟩

/-- C4 (amended): for roots and names made of plain path segments —
nonempty, not `"."` or `".."`, free of separators and of the
URL-reserved characters `':'`, `'?'`, `'#'` — with at most one trailing
separator on the name, `safe_join` succeeds and returns exactly the
normalized root followed by the leading-separator-stripped name, which
therefore starts with the normalized root and ends with the normalized
name (trailing separators preserved). -/
theorem C4_clean_resolve (R N : PyStr) (hR : rootClean R = true)
    (hN : nameClean N = true) :
    safe_join R N = .ok (normalizedRoot R ++ lstripSlash N) ∧
    (normalizedRoot R).isPrefixOf (normalizedRoot R ++ lstripSlash N) = true ∧
    (lstripSlash N).isSuffixOf (normalizedRoot R ++ lstripSlash N) = true := by
  refine ⟨safe_join_clean_eq R N hR hN, ?_, ?_⟩
  · exact isPrefixOf_append_self _ _
  · exact isSuffixOf_append_self _ _

/-- Witness for `C4_clean_resolve` at root `"/media/"` and name
`"avatars/1.png"`. -/
theorem C4_clean_resolve_witness :
    rootClean "/media/".data = true ∧ nameClean "avatars/1.png".data = true ∧
    safe_join "/media/".data "avatars/1.png".data =
      .ok (normalizedRoot "/media/".data ++ lstripSlash "avatars/1.png".data) :=
  ⟨by rfl, by rfl,
    (C4_clean_resolve "/media/".data "avatars/1.png".data (by rfl) (by rfl)).1⟩

/-! ### Claim theorems: directory listing -/

theorem rstripSlash_cons (c : Char) (rest : PyStr) :
    rstripSlash (c :: rest) =
      if rstripSlash rest = [] ∧ c = '/' then [] else c :: rstripSlash rest := rfl

theorem rstripSlash_append_slash (s : PyStr) :
    rstripSlash (s ++ ['/']) = rstripSlash s := by
  induction s with
  | nil => rfl
  | cons c rest ih =>
    rw [List.cons_append, rstripSlash_cons, rstripSlash_cons, ih]

theorem rstripSlash_no_slash (s : PyStr) (h : '/' ∉ s) : rstripSlash s = s := by
  induction s with
  | nil => rfl
  | cons c rest ih =>
    have hc : c ≠ '/' := fun hcc => h (hcc ▸ List.mem_cons_self c rest)
    rw [rstripSlash_cons, if_neg (fun hp => hc hp.2),
      ih (fun hm => h (List.mem_cons_of_mem c hm))]

theorem dropWhile_ne_slash (rem : PyStr) (h : '/' ∈ rem) :
    ∃ tail, rem.dropWhile (· ≠ '/') = '/' :: tail := by
  induction rem with
  | nil => simp at h
  | cons c rest ih =>
    by_cases hc : c = '/'
    · refine ⟨rest, ?_⟩
      rw [List.dropWhile_cons, if_neg (by simp [hc]), hc]
    · have hm : '/' ∈ rest := by
        rcases List.mem_cons.mp h with h1 | h1
        · exact absurd h1.symm hc
        · exact h1
      obtain ⟨tail, htail⟩ := ih hm
      refine ⟨tail, ?_⟩
      rw [List.dropWhile_cons, if_pos (by simp [hc]), htail]

theorem list_blobs_fst (keys : List PyStr) (p : PyStr) :
    (list_blobs keys p).1 =
      (keys.filter fun k => p.isPrefixOf k).filter
        (fun k => ¬ (k.drop p.length).contains '/') := rfl

theorem list_blobs_snd (keys : List PyStr) (p : PyStr) :
    (list_blobs keys p).2 =
      (((keys.filter fun k => p.isPrefixOf k).filter
          fun k => (k.drop p.length).contains '/').map
        fun k => p ++ (k.drop p.length).takeWhile (· ≠ '/') ++ ['/']).dedup := rfl

/-- C9 (amended): `listdir` strips the resolved key prefix from every
returned file name and subdirectory marker (stripping the trailing
separator from the latter) and returns both lists sorted
lexicographically; since resolved keys carry a leading separator, the
scenario holds for store keys `/photos/a.jpg` and `/photos/sub/b.jpg`:
`listdir("photos/")` returns subdirs `[sub]` and files `[a.jpg]`. -/
theorem C9_listdir_strip_sort :
    (∀ (keys : List PyStr) (p : PyStr),
      List.Sorted (· ≤ ·) (listdirResolved keys p).1 ∧
      List.Sorted (· ≤ ·) (listdirResolved keys p).2 ∧
      (∀ f ∈ (listdirResolved keys p).2, p ++ f ∈ keys) ∧
      (∀ d ∈ (listdirResolved keys p).1,
        ∃ k ∈ keys, (p ++ d ++ ['/']).isPrefixOf k = true)) ∧
    (∀ (keys : List PyStr) (subdir path p : PyStr),
      safe_join subdir path = .ok p →
      DjangoGCloudStorage.listdir keys subdir path = .ok (listdirResolved keys p)) ∧
    DjangoGCloudStorage.listdir ["/photos/a.jpg".data, "/photos/sub/b.jpg".data]
      "".data "photos/".data = .ok (["sub".data], ["a.jpg".data]) := by
  refine ⟨?_, ?_, by rfl⟩
  · intro keys p
    refine ⟨List.sorted_insertionSort _ _, List.sorted_insertionSort _ _, ?_, ?_⟩
    · intro f hf
      have hf2 : f ∈ (list_blobs keys p).1.map fun b => remove_pfx b p :=
        (List.perm_insertionSort _ _).mem_iff.mp hf
      obtain ⟨b, hb, hfb⟩ := List.mem_map.mp hf2
      rw [list_blobs_fst] at hb
      obtain ⟨hb1, -⟩ := List.mem_filter.mp hb
      obtain ⟨hbk, hbp⟩ := List.mem_filter.mp hb1
      obtain ⟨t, ht⟩ := isPrefixOf_exists _ _ hbp
      rw [← hfb, remove_pfx, if_pos hbp, ← ht, List.drop_left]
      exact ht ▸ hbk
    · intro d hd
      have hd2 : d ∈ (list_blobs keys p).2.map
          fun q => rstripSlash (remove_pfx q p) :=
        (List.perm_insertionSort _ _).mem_iff.mp hd
      obtain ⟨q, hq, hdq⟩ := List.mem_map.mp hd2
      rw [list_blobs_snd] at hq
      have hq2 := List.mem_dedup.mp hq
      obtain ⟨k, hk, hqk⟩ := List.mem_map.mp hq2
      obtain ⟨hk1, hkc⟩ := List.mem_filter.mp hk
      obtain ⟨hkk, hkp⟩ := List.mem_filter.mp hk1
      obtain ⟨t, ht⟩ := isPrefixOf_exists _ _ hkp
      have hrem : k.drop p.length = t := by rw [← ht, List.drop_left]
      have hseg_no : '/' ∉ (k.drop p.length).takeWhile (· ≠ '/') := by
        intro hmem
        have := List.mem_takeWhile_imp hmem
        simp at this
      have hd3 : d = (k.drop p.length).takeWhile (· ≠ '/') := by
        rw [← hdq, ← hqk, remove_pfx, if_pos ?_, List.append_assoc,
          List.drop_left, rstripSlash_append_slash,
          rstripSlash_no_slash _ hseg_no]
        exact isPrefixOf_of_append _ _ _
          (List.append_assoc p ((k.drop p.length).takeWhile (· ≠ '/')) ['/']).symm
      have hsl : '/' ∈ k.drop p.length := by
        rw [List.contains_iff_exists_mem_beq] at hkc
        obtain ⟨a, ha, hab⟩ := hkc
        rw [eq_of_beq hab]
        exact ha
      obtain ⟨tail, htail⟩ := dropWhile_ne_slash _ hsl
      refine ⟨k, hkk, ?_⟩
      apply isPrefixOf_of_append _ tail
      have hk2 : k = p ++ k.drop p.length := by rw [hrem, ht]
      rw [hd3]
      conv_rhs => rw [hk2, ← List.takeWhile_append_dropWhile (· ≠ '/')
        (k.drop p.length), htail]
      simp
  · intro keys subdir path p h
    unfold DjangoGCloudStorage.listdir
    rw [h]
    rfl

/-- C9 (counterexample): with the claim's literal store keys
`photos/a.jpg` and `photos/sub/b.jpg` (no leading separator), the
resolved prefix `/photos/` matches nothing, so `listdir("photos/")`
returns two empty lists, not `([sub], [a.jpg])`. -/
theorem C9_counterexample :
    DjangoGCloudStorage.listdir ["photos/a.jpg".data, "photos/sub/b.jpg".data]
      "".data "photos/".data = .ok ([], []) ∧
    DjangoGCloudStorage.listdir ["photos/a.jpg".data, "photos/sub/b.jpg".data]
      "".data "photos/".data ≠ .ok (["sub".data], ["a.jpg".data]) := by
  refine ⟨by rfl, ?_⟩
  intro h
  have h0 : DjangoGCloudStorage.listdir
      ["photos/a.jpg".data, "photos/sub/b.jpg".data] "".data "photos/".data =
      .ok (([] : List PyStr), ([] : List PyStr)) := rfl
  rw [h0] at h
  injection h with h2
  have h3 := congrArg Prod.fst h2
  exact List.noConfusion h3

/-- Witness for `C9_listdir_strip_sort`: the resolution conjunct at the
corrected scenario input. -/
theorem C9_listdir_strip_sort_witness :
    DjangoGCloudStorage.listdir ["/photos/a.jpg".data, "/photos/sub/b.jpg".data]
      "".data "photos/".data =
      .ok (listdirResolved ["/photos/a.jpg".data, "/photos/sub/b.jpg".data]
        "/photos/".data) :=
  C9_listdir_strip_sort.2.1 ["/photos/a.jpg".data, "/photos/sub/b.jpg".data]
    "".data "photos/".data "/photos/".data (by rfl)
